import Mathlib

/-!
# A shallow embedding of the `binreader` crate's cursor model

This file embeds the core of the `binreader` Rust crate in Lean 4:
the `BinReader` trait defaults from `src/binreader/src/lib.rs` together
with the method overrides of the three reader variants
(`SliceRefBinReader` in `src/binreader/src/readers/slice.rs`,
`RandomAccessBinReader` in `src/binreader/src/readers/random_access.rs`,
`MmapBinReader` in `src/binreader/src/readers/mmap.rs`).

Modelling conventions:

* Rust `usize` values are modelled as `Nat`.  Checked subtraction
  (`a - b` on `usize`, which aborts on underflow in a checked build) is
  `checkedSub`, and a failed check surfaces as the `RRes.crash` outcome,
  which models a Rust panic.  Index and slice expressions on byte buffers
  likewise crash when out of bounds, exactly as in Rust.
* `usize` additions are modelled over `Nat`; universally quantified
  theorems carry explicit bounds (such as `data.length + initialOffset`
  being below `2 ^ 63`) under which the corresponding Rust additions
  cannot overflow.
* Rust `isize` values are modelled as `Int`; the `as isize` / `as usize`
  casts are the bit-reinterpreting conversions `asIsize` / `asUsize`.
* The three variants keep their cursor in a `Cell<usize>`, so mutating
  methods take a `Reader` and return the result *paired with* the final
  reader state: an `Err` return still keeps whatever cell writes happened
  before the error, as in the source.
* Bytes are `Nat` values; every byte stored by the embedded operations is
  below `256`.
-/

set_option autoImplicit false

namespace Binreader

/-- `Endidness` from `src/binreader/src/lib.rs`. -/
inductive Endidness where
  | big
  | little
  | unknown
  deriving DecidableEq, Repr

/-- The error taxonomy `Error` from `src/binreader/src/lib.rs` (the
variants reachable from the embedded operations). -/
inductive Error where
  | offsetTooSmall : Nat → Error
  | offsetTooLarge : Nat → Error
  /-- `NotEnoughData(bytes requested, bytes remaining)`. -/
  | notEnoughData : Nat → Nat → Error
  | unknownEndidness : Error
  | noMoreData : Error
  deriving DecidableEq, Repr

/-- Result of running an embedded operation: `ok`, a returned `Err`, or
`crash`, which models a Rust panic (index out of bounds, slice range out
of bounds, or checked-arithmetic overflow). -/
inductive RRes (α : Type) where
  | ok : α → RRes α
  | err : Error → RRes α
  | crash : RRes α
  deriving DecidableEq, Repr

/-- Checked `usize` subtraction: `none` models the underflow panic. -/
def checkedSub (a b : Nat) : Option Nat :=
  if b ≤ a then some (a - b) else none

/-- The Rust cast `n as isize` (bit reinterpretation of a `usize`). -/
def asIsize (n : Nat) : Int :=
  if n < 2 ^ 63 then (n : Int) else (n : Int) - 2 ^ 64

/-- The Rust cast `i as usize` (bit reinterpretation of an `isize`). -/
def asUsize (i : Int) : Nat :=
  (i % (2 ^ 64 : Int)).toNat

/-- The Rust slice expression `&data[start..stop]`: crashes (panics)
unless `start ≤ stop ≤ data.length`. -/
def sliceIdx (data : List Nat) (start stop : Nat) : RRes (List Nat) :=
  if start ≤ stop ∧ stop ≤ data.length then
    .ok ((data.drop start).take (stop - start))
  else
    .crash

/-- The state shared by the `SliceRefBinReader`, `RandomAccessBinReader`
and `MmapBinReader` variants: a byte buffer, the `initial_offset`, the
cursor `position` (held in a `Cell<usize>` in the source) and the
configured endidness.  All three variants are constructed with
`position = 0`. -/
structure Reader where
  data : List Nat
  initialOffset : Nat
  position : Nat
  endidness : Endidness
  deriving DecidableEq, Repr

namespace Reader

/-- `BinReader::size` as implemented by all three variants: the buffer
length. -/
def size (r : Reader) : Nat := r.data.length

/-- `BinReader::lower_offset_limit` (trait default): `initial_offset`. -/
def lowerOffsetLimit (r : Reader) : Nat := r.initialOffset

/-- `BinReader::upper_offset_limit` (trait default):
`size() + initial_offset()`. -/
def upperOffsetLimit (r : Reader) : Nat := r.data.length + r.initialOffset

/-- `BinReader::current_offset` as implemented by all three variants:
`position + initial_offset`. -/
def currentOffset (r : Reader) : Nat := r.position + r.initialOffset

/-- `remaining` as overridden by all three variants:
`size() - position` on `usize`, which panics when the cursor invariant
`position ≤ size` is broken. -/
def remaining (r : Reader) : RRes Nat :=
  match checkedSub r.data.length r.position with
  | some n => .ok n
  | none => .crash

/-- `adj_pos(amt)`, identical in all three variants:
`position = (position as isize + amt) as usize`. -/
def adjPos (r : Reader) (amt : Int) : Reader :=
  { r with position := asUsize (asIsize r.position + amt) }

/-- Rules 2-5 of `BinReader::validate_offset`
(`src/binreader/src/lib.rs` lines 217-225): the checks performed after
the `NoMoreData` check.  The expression `upper_offset_limit() - size` is
a checked `usize` subtraction. -/
def validateTail (r : Reader) (offset size_ : Nat) : RRes Unit :=
  if offset < r.lowerOffsetLimit then .err (.offsetTooSmall offset)
  else if r.upperOffsetLimit < offset then .err (.offsetTooLarge offset)
  else
    match checkedSub r.upperOffsetLimit size_ with
    | some bound =>
      if bound < offset then
        match r.remaining with
        | .ok rem => .err (.notEnoughData size_ rem)
        | .err e => .err e
        | .crash => .crash
      else .ok ()
    | none => .crash

/-- `BinReader::validate_offset(offset, size)`
(`src/binreader/src/lib.rs` lines 214-226).  The first rule is
`size > 0 && self.is_empty()` where `is_empty` is `remaining() == 0`;
`&&` short-circuits, so `remaining` is only evaluated when `size > 0`. -/
def validateOffset (r : Reader) (offset size_ : Nat) : RRes Unit :=
  if 0 < size_ then
    match r.remaining with
    | .ok rem => if rem = 0 then .err .noMoreData else r.validateTail offset size_
    | .err e => .err e
    | .crash => .crash
  else r.validateTail offset size_

/-- `BinReader::u8_at(offset)` (`src/binreader/src/lib.rs` lines
294-297; `MmapBinReader` overrides it with the same logic): validate
`(offset, 0)`, then index `as_ref()[offset - initial_offset]`. -/
def u8At (r : Reader) (offset : Nat) : RRes Nat :=
  match r.validateOffset offset 0 with
  | .ok _ =>
    match checkedSub offset r.initialOffset with
    | some i =>
      match r.data.get? i with
      | some b => .ok b
      | none => .crash
    | none => .crash
  | .err e => .err e
  | .crash => .crash

/-- The loop of `BinReader::bytes_at`: `buf[i] = self.u8_at(offset + i)?`
for `i` ascending, collected as the filled buffer. -/
def bytesAtGo (r : Reader) : Nat → Nat → RRes (List Nat)
  | _, 0 => .ok []
  | offset, n + 1 =>
    match r.u8At offset with
    | .ok b =>
      match r.bytesAtGo (offset + 1) n with
      | .ok bs => .ok (b :: bs)
      | .err e => .err e
      | .crash => .crash
    | .err e => .err e
    | .crash => .crash

/-- `BinReader::bytes_at(offset, buf)` (`src/binreader/src/lib.rs` lines
246-252) for a buffer of length `n`: validate `(offset, n)`, then fill
byte by byte through `u8_at`. -/
def bytesAt (r : Reader) (offset n : Nat) : RRes (List Nat) :=
  match r.validateOffset offset n with
  | .ok _ => r.bytesAtGo offset n
  | .err e => .err e
  | .crash => .crash

/-- `next_u8` as overridden identically by all three variants
(e.g. `src/binreader/src/readers/slice.rs` lines 95-99): validate
`(current_offset, 1)`, `adj_pos(1)`, then return
`data[position - 1]`. -/
def nextU8 (r : Reader) : RRes Nat × Reader :=
  match r.validateOffset r.currentOffset 1 with
  | .ok _ =>
    let r' := r.adjPos 1
    (match checkedSub r'.position 1 with
     | some i =>
       match r'.data.get? i with
       | some b => .ok b
       | none => .crash
     | none => .crash, r')
  | .err e => (.err e, r)
  | .crash => (.crash, r)

/-- The loop of `BinReader::next_bytes` (`src/binreader/src/lib.rs`
lines 269-274): `buf[i] = self.next_u8()?` for `i` ascending.  The cell
writes performed before a failing iteration persist. -/
def nextBytesGo : Reader → Nat → RRes (List Nat) × Reader
  | r, 0 => (.ok [], r)
  | r, n + 1 =>
    match r.nextU8 with
    | (.ok b, r') =>
      match nextBytesGo r' n with
      | (.ok bs, r'') => (.ok (b :: bs), r'')
      | (.err e, r'') => (.err e, r'')
      | (.crash, r'') => (.crash, r'')
    | (.err e, r') => (.err e, r')
    | (.crash, r') => (.crash, r')

/-- `BinReader::next_bytes` for a buffer of length `n`. -/
def nextBytes (r : Reader) (n : Nat) : RRes (List Nat) × Reader :=
  nextBytesGo r n

/-- `advance_to(offset)` as implemented by `SliceRefBinReader`
(`src/binreader/src/readers/slice.rs` lines 83-87) and identically by
`MmapBinReader`: validate `(offset, 0)`, then
`position = offset - initial_offset`. -/
def advanceToSlice (r : Reader) (offset : Nat) : RRes Unit × Reader :=
  match r.validateOffset offset 0 with
  | .ok _ =>
    match checkedSub offset r.initialOffset with
    | some p => (.ok (), { r with position := p })
    | none => (.crash, r)
  | .err e => (.err e, r)
  | .crash => (.crash, r)

/-- `advance_to(offset)` as implemented by `RandomAccessBinReader`
(`src/binreader/src/readers/random_access.rs` lines 78-82): validate
`(offset, 0)`, then `position.replace(offset)` — the *absolute* offset
is stored, without subtracting `initial_offset`. -/
def advanceToRandom (r : Reader) (offset : Nat) : RRes Unit × Reader :=
  match r.validateOffset offset 0 with
  | .ok _ => (.ok (), { r with position := offset })
  | .err e => (.err e, r)
  | .crash => (.crash, r)

/-- `advance_by(num_bytes)` as implemented by `SliceRefBinReader`
(`src/binreader/src/readers/slice.rs` lines 89-93) and identically by
`MmapBinReader`: validate
`((current_offset() as isize + num_bytes) as usize, 0)`, then
`adj_pos(num_bytes)`. -/
def advanceBySlice (r : Reader) (numBytes : Int) : RRes Unit × Reader :=
  match r.validateOffset (asUsize (asIsize r.currentOffset + numBytes)) 0 with
  | .ok _ => (.ok (), r.adjPos numBytes)
  | .err e => (.err e, r)
  | .crash => (.crash, r)

/-- `advance_by(bytes)` as implemented by `RandomAccessBinReader`
(`src/binreader/src/readers/random_access.rs` lines 84-88): validates
`((position.get() as isize + bytes) as usize, 0)` — the *relative*
position, not `current_offset` — then `adj_pos(bytes)`. -/
def advanceByRandom (r : Reader) (numBytes : Int) : RRes Unit × Reader :=
  match r.validateOffset (asUsize (asIsize r.position + numBytes)) 0 with
  | .ok _ => (.ok (), r.adjPos numBytes)
  | .err e => (.err e, r)
  | .crash => (.crash, r)

/-- `BinReader::next_n_bytes(num_bytes)` trait default
(`src/binreader/src/lib.rs` lines 168-174), used by `SliceRefBinReader`
and `MmapBinReader`: validate `(current_offset, n)`, slice
`as_ref()[start..start + n]` with `start = current_offset -
initial_offset`, then `advance_by(n as isize)`. -/
def nextNBytesDefault (r : Reader) (numBytes : Nat) : RRes (List Nat) × Reader :=
  match r.validateOffset r.currentOffset numBytes with
  | .ok _ =>
    match checkedSub r.currentOffset r.initialOffset with
    | some start =>
      match sliceIdx r.data start (start + numBytes) with
      | .ok bs =>
        match r.advanceBySlice (asIsize numBytes) with
        | (.ok _, r') => (.ok bs, r')
        | (.err e, r') => (.err e, r')
        | (.crash, r') => (.crash, r')
      | .err e => (.err e, r)
      | .crash => (.crash, r)
    | none => (.crash, r)
  | .err e => (.err e, r)
  | .crash => (.crash, r)

/-- `next_n_bytes(num_bytes)` as overridden by `RandomAccessBinReader`
(`src/binreader/src/readers/random_access.rs` lines 96-102): validate
`(current_offset, n)`, `adj_pos(n as isize)` *first*, then return
`data.slice(current_offset()..current_offset() + n)` — both the slice
bounds and the use of the absolute offset refer to the state *after*
advancing.  `Bytes::slice` panics when the end exceeds the buffer
length. -/
def nextNBytesRandom (r : Reader) (numBytes : Nat) : RRes (List Nat) × Reader :=
  match r.validateOffset r.currentOffset numBytes with
  | .ok _ =>
    let r' := r.adjPos (asIsize numBytes)
    (sliceIdx r'.data r'.currentOffset (r'.currentOffset + numBytes), r')
  | .err e => (.err e, r)
  | .crash => (.crash, r)

/-- `BinReader::next_bytes_are(prefix)` (`src/binreader/src/lib.rs`
lines 236-242): validate `(current_offset, prefix.len())`; then the
source builds `buf` as `Vec::with_capacity(prefix.len())` followed by a
fill loop over `0..buf.len()` — `with_capacity` yields a vector of
*length zero*, so the loop runs zero times and `buf` stays empty; then
`bytes_at(current_offset, &mut buf)` on the empty buffer, and finally
`prefix.iter().zip(buf).all(..)`, a zip with the empty buffer. -/
def nextBytesAre (r : Reader) (pfx : List Nat) : RRes Bool :=
  match r.validateOffset r.currentOffset pfx.length with
  | .ok _ =>
    let buf : List Nat := []
    match r.bytesAt r.currentOffset buf.length with
    | .ok buf' => .ok ((pfx.zip buf').all fun p => p.1 == p.2)
    | .err e => .err e
    | .crash => .crash
  | .err e => .err e
  | .crash => .crash

/-- `BinReader::range(start, end)` (`src/binreader/src/lib.rs` lines
262-265): validate `(start, end - start)` — a checked `usize`
subtraction — then return `&as_ref()[start..end]`, indexing with the
*absolute* offsets. -/
def rangeOp (r : Reader) (start stop : Nat) : RRes (List Nat) :=
  match checkedSub stop start with
  | some len =>
    match r.validateOffset start len with
    | .ok _ => sliceIdx r.data start stop
    | .err e => .err e
    | .crash => .crash
  | none => .crash

/-- `slice_reader(start, end)` (`src/binreader/src/readers/slice.rs`
lines 110-114): `SliceRefBinReader::from_slice(range(start, end)?,
endidness)`, i.e. a child reader over the ranged bytes with
`initial_offset = 0` and `position = 0`. -/
def sliceReader (r : Reader) (start stop : Nat) : RRes Reader :=
  match r.rangeOp start stop with
  | .ok bs => .ok ⟨bs, 0, 0, r.endidness⟩
  | .err e => .err e
  | .crash => .crash

/-- `slice_reader_retain_offset(start, end)`
(`src/binreader/src/readers/slice.rs` lines 146-153):
`SliceRefBinReader::from_slice_with_offset(range(start, end)?,
self.current_offset(), endidness)` — the child's `initial_offset` is
the parent's *current* offset. -/
def sliceReaderRetainOffset (r : Reader) (start stop : Nat) : RRes Reader :=
  match r.rangeOp start stop with
  | .ok bs => .ok ⟨bs, r.currentOffset, 0, r.endidness⟩
  | .err e => .err e
  | .crash => .crash

end Reader

/-- Big-endian decoding, the model of Rust `uN::from_be_bytes`:
most-significant byte first. -/
def decodeBe (bs : List Nat) : Nat :=
  bs.foldl (fun acc b => acc * 256 + b) 0

/-- Big-endian encoding of `v` into `w` bytes, the model of Rust
`uN::to_be_bytes` (with `w = N / 8`). -/
def encodeBe : Nat → Nat → List Nat
  | 0, _ => []
  | w + 1, v => encodeBe w (v / 256) ++ [v % 256]

/-- Byte order of an explicit-endianness accessor (`_be` / `_le`). -/
inductive ByteOrder where
  | be
  | le
  deriving DecidableEq, Repr

/-- Decoding with an explicit byte order; little-endian is big-endian of
the reversed byte sequence, matching Rust `uN::from_le_bytes`. -/
def decodeOrd (e : ByteOrder) (bs : List Nat) : Nat :=
  match e with
  | .be => decodeBe bs
  | .le => decodeBe bs.reverse

/-- Encoding with an explicit byte order, matching Rust
`uN::to_le_bytes` / `uN::to_be_bytes`. -/
def encodeOrd (e : ByteOrder) (w v : Nat) : List Nat :=
  match e with
  | .be => encodeBe w v
  | .le => (encodeBe w v).reverse

/-- Reinterpreting a `w`-byte unsigned value as the signed `iN` of the
same width (two's complement), the model of Rust `iN::from_?e_bytes`
composed with the unsigned decoding. -/
def asSigned (w u : Nat) : Int :=
  if 2 * u < 256 ^ w then (u : Int) else (u : Int) - 256 ^ w

/-- The two's-complement byte encoding of a signed value `z` in `w`
bytes with byte order `e`, the model of Rust `iN::to_?e_bytes`. -/
def encodeSigned (e : ByteOrder) (w : Nat) (z : Int) : List Nat :=
  encodeOrd e w (z % ((256 : Int) ^ w)).toNat

namespace Reader

/-- The macro template `numname_numend_at`
(`src/binreader/src/lib.rs` lines 299-307, expanded by
`make_number_methods` of `src/macros/src/num_getters.rs` for each
unsigned width `w ∈ {2, 4, 8, 16}` and order): `bytes_at(offset, buf)`
with `buf` of length `w`, then `uN::from_?e_bytes(buf)`. -/
def numOrdAt (r : Reader) (e : ByteOrder) (w offset : Nat) : RRes Nat :=
  match r.bytesAt offset w with
  | .ok buf => .ok (decodeOrd e buf)
  | .err e' => .err e'
  | .crash => .crash

/-- The same macro template instantiated at the signed types
`i16 … i128`: identical byte read, decoded by `iN::from_?e_bytes`. -/
def intOrdAt (r : Reader) (e : ByteOrder) (w offset : Nat) : RRes Int :=
  match r.bytesAt offset w with
  | .ok buf => .ok (asSigned w (decodeOrd e buf))
  | .err e' => .err e'
  | .crash => .crash

/-- The macro template `next_numname_numend`
(`src/binreader/src/lib.rs` lines 404-412) for the unsigned widths:
`next_bytes(&mut buf)` with `buf` of length `w`, then
`uN::from_?e_bytes(buf)`.  `next_bytes` advances byte by byte. -/
def nextNumOrd (r : Reader) (e : ByteOrder) (w : Nat) : RRes Nat × Reader :=
  match r.nextBytes w with
  | (.ok buf, r') => (.ok (decodeOrd e buf), r')
  | (.err e', r') => (.err e', r')
  | (.crash, r') => (.crash, r')

/-- The same `next` template instantiated at the signed types. -/
def nextIntOrd (r : Reader) (e : ByteOrder) (w : Nat) : RRes Int × Reader :=
  match r.nextBytes w with
  | (.ok buf, r') => (.ok (asSigned w (decodeOrd e buf)), r')
  | (.err e', r') => (.err e', r')
  | (.crash, r') => (.crash, r')

/-- The mathematical `remaining` used by the specification's validation
rules: `size() - position` as truncated `Nat` subtraction (the spec
presumes the cursor invariant `position ≤ size`). -/
def specRemaining (r : Reader) : Nat := r.data.length - r.position

/-- The validation rules exactly as the specification states them
(spec §4.1, first match wins), with rule 4's subtraction
`upper_limit − length` read over the integers.  This is the
specification-side definition that `validate_offset` is compared
against. -/
def specValidateRules (r : Reader) (offset len : Nat) : RRes Unit :=
  if 0 < len ∧ r.specRemaining = 0 then .err .noMoreData
  else if offset < r.lowerOffsetLimit then .err (.offsetTooSmall offset)
  else if r.upperOffsetLimit < offset then .err (.offsetTooLarge offset)
  else if (r.upperOffsetLimit : Int) - (len : Int) < (offset : Int) then
    .err (.notEnoughData len r.specRemaining)
  else .ok ()

end Reader

section ClaimBugs

open Reader

/-- C1: the claim states that every cursor-advancing read that returns
an error leaves `current_offset()` unchanged.  The code violates it:
`next_u16_be` (the `next_numname_numend` template at width 2) on a
one-byte reader consumes the single byte, then fails with `NoMoreData`
on the second byte, returning `Err` with the cursor advanced from
offset `0` to offset `1`. -/
theorem C1_failed_next_read_moves_cursor :
    (Reader.nextNumOrd ⟨[170], 0, 0, .big⟩ .be 2).1 = .err .noMoreData ∧
    (Reader.nextNumOrd ⟨[170], 0, 0, .big⟩ .be 2).2.currentOffset = 1 ∧
    (⟨[170], 0, 0, .big⟩ : Reader).currentOffset = 0 := by
  decide

/-- C2: the claim states that for every variant, `advance_to(offset)`
with `offset` in `[lower_offset_limit, upper_offset_limit]` succeeds
and makes `current_offset()` return exactly `offset`.
`RandomAccessBinReader::advance_to` stores the absolute offset into the
relative `position` cell: on an 8-byte reader with `initial_offset =
100`, `advance_to(104)` succeeds but `current_offset()` is then `204`,
not `104`. -/
theorem C2_random_access_advance_to_wrong_offset :
    (Reader.advanceToRandom ⟨[0, 1, 2, 3, 4, 5, 6, 7], 100, 0, .big⟩ 104).1 = .ok () ∧
    (Reader.advanceToRandom ⟨[0, 1, 2, 3, 4, 5, 6, 7], 100, 0, .big⟩ 104).2.currentOffset = 204 ∧
    (Reader.advanceToRandom ⟨[0, 1, 2, 3, 4, 5, 6, 7], 100, 0, .big⟩ 104).2.currentOffset ≠ 104 := by
  decide

/-- C3: the claim states that no accessor panics on ordinary malformed
input.  Three panics reachable from safe calls on a 2-byte reader:
`u8_at(2)` passes validation (`2 = upper_offset_limit`) and then indexes
out of bounds; `range(5, 3)` underflows computing `end - start`;
`validate_offset(1, 100)` underflows computing
`upper_offset_limit() - size`. -/
theorem C3_accessors_can_panic :
    Reader.u8At ⟨[0, 1], 0, 0, .big⟩ 2 = .crash ∧
    Reader.rangeOp ⟨[0, 1], 0, 0, .big⟩ 5 3 = .crash ∧
    Reader.validateOffset ⟨[0, 1], 0, 0, .big⟩ 1 100 = .crash := by
  decide

/-- C4: the claim states that `next_n_bytes(n)` returns the `n` bytes
at `[current_offset, current_offset + n)` as of the call.  The
`RandomAccessBinReader` override advances the cursor *before* slicing
and slices at the post-advance offset: on `[0, 1, 2, 3]` with the
cursor at offset `0`, `next_n_bytes(2)` returns `[2, 3]` instead of the
claimed `[0, 1]` (which is `data.drop 0 |>.take 2`). -/
theorem C4_random_access_next_n_bytes_wrong_bytes :
    Reader.nextNBytesRandom ⟨[0, 1, 2, 3], 0, 0, .big⟩ 2 =
      (.ok [2, 3], ⟨[0, 1, 2, 3], 0, 2, .big⟩) ∧
    (Reader.nextNBytesRandom ⟨[0, 1, 2, 3], 0, 0, .big⟩ 2).1 ≠
      .ok ((([0, 1, 2, 3] : List Nat).drop 0).take 2) := by
  decide

/-- C5: the claim states that `next_bytes_are(prefix)` returns
`Ok(true)` iff the next `prefix.len()` bytes equal `prefix`.  The code
builds its comparison buffer with `Vec::with_capacity` (length `0`) and
never fills it, so the zip compares nothing: on a reader over `[1, 2]`
the call `next_bytes_are([9])` returns `Ok(true)` although the byte at
the cursor is `1 ≠ 9`. -/
theorem C5_next_bytes_are_always_true :
    Reader.nextBytesAre ⟨[1, 2], 0, 0, .big⟩ [9] = .ok true ∧
    ([1, 2] : List Nat).take 1 ≠ [9] := by
  decide

/-- C8: the claim states that every operation preserves
`initial_offset ≤ current_offset ≤ initial_offset + size` and that
`remaining()` never underflows.  After the successful
`RandomAccessBinReader::advance_to(104)` on an 8-byte reader with
`initial_offset = 100`, `current_offset() = 204` exceeds
`upper_offset_limit() = 108` and `remaining()` panics on the `usize`
subtraction `8 - 104`. -/
theorem C8_random_access_breaks_cursor_invariant :
    (Reader.advanceToRandom ⟨[0, 1, 2, 3, 4, 5, 6, 7], 100, 0, .big⟩ 104).1 = .ok () ∧
    (Reader.advanceToRandom ⟨[0, 1, 2, 3, 4, 5, 6, 7], 100, 0, .big⟩ 104).2.remaining = .crash ∧
    (⟨[0, 1, 2, 3, 4, 5, 6, 7], 100, 0, .big⟩ : Reader).upperOffsetLimit <
      (Reader.advanceToRandom ⟨[0, 1, 2, 3, 4, 5, 6, 7], 100, 0, .big⟩ 104).2.currentOffset := by
  decide

/-- C6 counterexample: the claim states that
`slice_reader_retain_offset(start, end)` yields a child whose
`initial_offset()` is `parent.initial_offset() + start`.  On a parent
over `[0, 1, 2, 3]` with `initial_offset = 0` and cursor at offset `0`,
`slice_reader_retain_offset(1, 3)` yields a child with
`initial_offset() = 0` (the parent's *current* offset), not `0 + 1`. -/
theorem C6_retain_offset_uses_current_offset :
    Reader.sliceReaderRetainOffset ⟨[0, 1, 2, 3], 0, 0, .big⟩ 1 3 = .ok ⟨[1, 2], 0, 0, .big⟩ ∧
    (⟨[1, 2], 0, 0, .big⟩ : Reader).initialOffset ≠
      (⟨[0, 1, 2, 3], 0, 0, .big⟩ : Reader).initialOffset + 1 := by
  decide

/-- C7 counterexample: the claim's rule 4 (read over the integers) makes
`validate_offset(1, 100)` on a 2-byte reader fail with
`NotEnoughData(100, 2)`; the code instead underflows the `usize`
subtraction `upper_offset_limit() - 100` and panics. -/
theorem C7_counterexample_length_above_upper_limit :
    Reader.specValidateRules ⟨[0, 1], 0, 0, .big⟩ 1 100 = .err (.notEnoughData 100 2) ∧
    Reader.validateOffset ⟨[0, 1], 0, 0, .big⟩ 1 100 = .crash := by
  decide

end ClaimBugs

section Helpers

theorem decodeBe_append_singleton (xs : List Nat) (b : Nat) :
    decodeBe (xs ++ [b]) = decodeBe xs * 256 + b := by
  simp [decodeBe, List.foldl_append]

theorem decodeBe_encodeBe (w : Nat) : ∀ v : Nat, v < 256 ^ w → decodeBe (encodeBe w v) = v := by
  induction w with
  | zero =>
    intro v hv
    interval_cases v
    rfl
  | succ w ih =>
    intro v hv
    have hdiv : v / 256 < 256 ^ w := by
      apply Nat.div_lt_of_lt_mul
      rw [pow_succ] at hv
      omega
    rw [encodeBe, decodeBe_append_singleton, ih _ hdiv]
    omega

theorem length_encodeBe (w : Nat) : ∀ v : Nat, (encodeBe w v).length = w := by
  induction w with
  | zero => intro v; rfl
  | succ w ih => intro v; simp [encodeBe, ih]

theorem length_encodeOrd (e : ByteOrder) (w v : Nat) : (encodeOrd e w v).length = w := by
  cases e <;> simp [encodeOrd, length_encodeBe]

theorem decodeOrd_encodeOrd (e : ByteOrder) (w v : Nat) (hv : v < 256 ^ w) :
    decodeOrd e (encodeOrd e w v) = v := by
  cases e <;> simp [decodeOrd, encodeOrd, decodeBe_encodeBe w v hv]

theorem cast_pow_256 (w : Nat) : ((256 ^ w : Nat) : Int) = (256 : Int) ^ w := by
  push_cast
  ring

theorem asSigned_of_emod (w : Nat) (z : Int) (h1 : -((256 ^ w : Nat) : Int) ≤ 2 * z)
    (h2 : 2 * z < ((256 ^ w : Nat) : Int)) :
    asSigned w (z % ((256 : Int) ^ w)).toNat = z := by
  have hm : (0 : Int) < ((256 ^ w : Nat) : Int) := by positivity
  rw [← cast_pow_256]
  unfold asSigned
  rw [← cast_pow_256]
  rcases le_or_lt 0 z with hz | hz
  · have : z % ((256 ^ w : Nat) : Int) = z := Int.emod_eq_of_lt hz (by omega)
    rw [this]
    split <;> omega
  · have hshift : (z + ((256 ^ w : Nat) : Int)) % ((256 ^ w : Nat) : Int) =
        z % ((256 ^ w : Nat) : Int) := by
      simp
    have : z % ((256 ^ w : Nat) : Int) = z + ((256 ^ w : Nat) : Int) := by
      rw [← hshift]
      exact Int.emod_eq_of_lt (by omega) (by omega)
    rw [this]
    split <;> omega

end Helpers

section AccessLemmas

theorem get?_append_cons (pre : List Nat) (b : Nat) (rest : List Nat) :
    (pre ++ b :: rest).get? pre.length = some b := by
  induction pre with
  | nil => rfl
  | cons a l ih => simpa using ih

theorem asIsize_of_lt (n : Nat) (h : n < 2 ^ 63) : asIsize n = (n : Int) := by
  unfold asIsize
  rw [if_pos h]

theorem asUsize_of_bounds (i : Int) (h0 : 0 ≤ i) (h1 : i < 2 ^ 64) : asUsize i = i.toNat := by
  unfold asUsize
  rw [Int.emod_eq_of_lt h0 h1]

theorem adjPos_eq (data : List Nat) (i0 pos : Nat) (e : Endidness) (amt : Int)
    (hpos : pos < 2 ^ 63) (h0 : 0 ≤ (pos : Int) + amt) (h1 : (pos : Int) + amt < 2 ^ 64) :
    Reader.adjPos ⟨data, i0, pos, e⟩ amt = ⟨data, i0, ((pos : Int) + amt).toNat, e⟩ := by
  unfold Reader.adjPos
  rw [asIsize_of_lt pos hpos, asUsize_of_bounds _ h0 h1]

theorem u8At_ok (data : List Nat) (i0 pos offset : Nat) (e : Endidness) (b : Nat)
    (h1 : i0 ≤ offset) (hb : data.get? (offset - i0) = some b) :
    Reader.u8At ⟨data, i0, pos, e⟩ offset = .ok b := by
  have hlt : offset - i0 < data.length := by
    by_contra h
    rw [List.get?_eq_none.mpr (by omega)] at hb
    exact Option.noConfusion hb
  have hA : ¬ (offset < i0) := by omega
  have hB : ¬ (data.length + i0 < offset) := by omega
  have hD : ¬ (data.length + i0 - 0 < offset) := by omega
  have hb' : data[offset - i0]? = some b := by
    rw [← List.get?_eq_getElem?]
    exact hb
  simp only [Reader.u8At, Reader.validateOffset, Reader.validateTail, Reader.lowerOffsetLimit,
    Reader.upperOffsetLimit, Reader.remaining, checkedSub]
  simp [hA, hB, hD, h1, hb']

theorem bytesAtGo_mid :
    ∀ (mid pre post : List Nat) (i0 pos : Nat) (e : Endidness),
      Reader.bytesAtGo ⟨pre ++ mid ++ post, i0, pos, e⟩ (i0 + pre.length) mid.length =
        .ok mid := by
  intro mid
  induction mid with
  | nil => intro pre post i0 pos e; rfl
  | cons b mid' ih =>
    intro pre post i0 pos e
    have hu8 : Reader.u8At ⟨pre ++ (b :: mid') ++ post, i0, pos, e⟩ (i0 + pre.length) = .ok b := by
      apply u8At_ok _ _ _ _ _ _ (by omega)
      rw [Nat.add_sub_cancel_left]
      have : pre ++ (b :: mid') ++ post = pre ++ b :: (mid' ++ post) := by simp
      rw [this]
      exact get?_append_cons pre b (mid' ++ post)
    have hdata : pre ++ (b :: mid') ++ post = (pre ++ [b]) ++ mid' ++ post := by simp
    have ih' := ih (pre ++ [b]) post i0 pos e
    rw [← hdata] at ih'
    simp only [List.length_append, List.length_cons, List.length_nil] at ih'
    show Reader.bytesAtGo ⟨pre ++ (b :: mid') ++ post, i0, pos, e⟩ (i0 + pre.length)
        (mid'.length + 1) = .ok (b :: mid')
    rw [Reader.bytesAtGo, hu8]
    rw [show i0 + pre.length + 1 = i0 + (pre.length + 1) by omega, ih']

theorem bytesAt_mid (mid pre post : List Nat) (i0 pos : Nat) (e : Endidness)
    (hmid : mid ≠ []) (hpos : pos < (pre ++ mid ++ post).length) :
    Reader.bytesAt ⟨pre ++ mid ++ post, i0, pos, e⟩ (i0 + pre.length) mid.length = .ok mid := by
  have hL : (pre ++ mid ++ post).length = pre.length + (mid.length + post.length) := by simp
  have hmid0 : 0 < mid.length := List.length_pos.mpr hmid
  have hA : ¬ (i0 + pre.length < i0) := by omega
  have hB : ¬ ((pre ++ mid ++ post).length + i0 < i0 + pre.length) := by omega
  have hC : mid.length ≤ (pre ++ mid ++ post).length + i0 := by omega
  have hD : ¬ ((pre ++ mid ++ post).length + i0 - mid.length < i0 + pre.length) := by omega
  have hE : pos ≤ (pre ++ mid ++ post).length := by omega
  have hF : ¬ ((pre ++ mid ++ post).length - pos = 0) := by omega
  simp only [Reader.bytesAt, Reader.validateOffset, Reader.validateTail, Reader.lowerOffsetLimit,
    Reader.upperOffsetLimit, Reader.remaining, checkedSub]
  simp only [if_pos hmid0, if_pos hE, if_neg hF, if_neg hA, if_neg hB, if_pos hC, if_neg hD]
  exact bytesAtGo_mid mid pre post i0 pos e

theorem nextU8_ok (data : List Nat) (i0 pos : Nat) (e : Endidness) (b : Nat)
    (hsmall : data.length < 2 ^ 63) (hb : data.get? pos = some b) :
    Reader.nextU8 ⟨data, i0, pos, e⟩ = (.ok b, ⟨data, i0, pos + 1, e⟩) := by
  have hlt : pos < data.length := by
    by_contra h
    rw [List.get?_eq_none.mpr (by omega)] at hb
    exact Option.noConfusion hb
  have hone : (0 : Nat) < 1 := by omega
  have hE : pos ≤ data.length := by omega
  have hF : ¬ (data.length - pos = 0) := by omega
  have hA : ¬ (pos + i0 < i0) := by omega
  have hB : ¬ (data.length + i0 < pos + i0) := by omega
  have hC : 1 ≤ data.length + i0 := by omega
  have hD : ¬ (data.length + i0 - 1 < pos + i0) := by omega
  have hadj := adjPos_eq data i0 pos e 1 (by omega) (by omega) (by omega)
  have htoNat : ((pos : Int) + 1).toNat = pos + 1 := by omega
  rw [htoNat] at hadj
  have hb' : data[pos]? = some b := by
    rw [← List.get?_eq_getElem?]
    exact hb
  simp only [Reader.nextU8, Reader.currentOffset, Reader.validateOffset, Reader.validateTail,
    Reader.lowerOffsetLimit, Reader.upperOffsetLimit, Reader.remaining, checkedSub]
  simp only [if_pos hone, if_pos hE, if_neg hF, if_neg hA, if_neg hB, if_pos hC, if_neg hD]
  rw [hadj]
  simp [hb']

theorem nextBytesGo_mid :
    ∀ (mid pre post : List Nat) (i0 : Nat) (e : Endidness),
      (pre ++ mid ++ post).length < 2 ^ 63 →
      Reader.nextBytesGo ⟨pre ++ mid ++ post, i0, pre.length, e⟩ mid.length =
        (.ok mid, ⟨pre ++ mid ++ post, i0, pre.length + mid.length, e⟩) := by
  intro mid
  induction mid with
  | nil => intro pre post i0 e hsmall; simp [Reader.nextBytesGo]
  | cons b mid' ih =>
    intro pre post i0 e hsmall
    have hget : (pre ++ (b :: mid') ++ post).get? pre.length = some b := by
      have : pre ++ (b :: mid') ++ post = pre ++ b :: (mid' ++ post) := by simp
      rw [this]
      exact get?_append_cons pre b (mid' ++ post)
    have hu8 := nextU8_ok (pre ++ (b :: mid') ++ post) i0 pre.length e b hsmall hget
    have hdata : pre ++ (b :: mid') ++ post = (pre ++ [b]) ++ mid' ++ post := by simp
    have hsmall' : ((pre ++ [b]) ++ mid' ++ post).length < 2 ^ 63 := by
      rw [← hdata]; exact hsmall
    have ih' := ih (pre ++ [b]) post i0 e hsmall'
    rw [← hdata] at ih'
    simp only [List.length_append, List.length_cons, List.length_nil, Nat.zero_add] at ih'
    show Reader.nextBytesGo ⟨pre ++ (b :: mid') ++ post, i0, pre.length, e⟩ (mid'.length + 1) =
      (.ok (b :: mid'), ⟨pre ++ (b :: mid') ++ post, i0, pre.length + (mid'.length + 1), e⟩)
    rw [Reader.nextBytesGo, hu8]
    dsimp only
    rw [ih']
    dsimp only
    rw [show pre.length + 1 + mid'.length = pre.length + (mid'.length + 1) by omega]

end AccessLemmas

section ValidateLemmas

theorem validateTail_eq_spec (data : List Nat) (i0 pos offset len : Nat) (e : Endidness)
    (hpos : pos ≤ data.length) (hlen : len ≤ data.length + i0) :
    Reader.validateTail ⟨data, i0, pos, e⟩ offset len =
      (if offset < i0 then .err (.offsetTooSmall offset)
       else if data.length + i0 < offset then .err (.offsetTooLarge offset)
       else if ((data.length + i0 : Nat) : Int) - (len : Int) < (offset : Int) then
         .err (.notEnoughData len (data.length - pos))
       else .ok ()) := by
  have hsub : checkedSub (data.length + i0) len = some (data.length + i0 - len) := by
    simp [checkedSub, hlen]
  have hrem : (⟨data, i0, pos, e⟩ : Reader).remaining = .ok (data.length - pos) := by
    simp [Reader.remaining, checkedSub, hpos]
  have hiff : (data.length + i0 - len < offset) ↔
      (((data.length + i0 : Nat) : Int) - (len : Int) < (offset : Int)) := by omega
  simp only [Reader.validateTail, Reader.lowerOffsetLimit, Reader.upperOffsetLimit, hsub, hrem]
  by_cases hA : offset < i0
  · simp [hA]
  · by_cases hB : data.length + i0 < offset
    · simp [hA, hB]
    · simp only [if_neg hA, if_neg hB]
      by_cases hC : data.length + i0 - len < offset
      · rw [if_pos hC, if_pos (hiff.mp hC)]
      · rw [if_neg hC, if_neg (fun h => hC (hiff.mpr h))]

theorem validateOffset_ok (data : List Nat) (i0 pos offset len : Nat) (e : Endidness)
    (hpos : pos ≤ data.length) (hrem : len = 0 ∨ pos < data.length)
    (h1 : i0 ≤ offset) (h2 : offset + len ≤ data.length + i0) :
    Reader.validateOffset ⟨data, i0, pos, e⟩ offset len = .ok () := by
  have htail : Reader.validateTail ⟨data, i0, pos, e⟩ offset len = .ok () := by
    rw [validateTail_eq_spec data i0 pos offset len e hpos (by omega)]
    rw [if_neg (by omega), if_neg (by omega), if_neg (by omega)]
  have hrem_ok : (⟨data, i0, pos, e⟩ : Reader).remaining = .ok (data.length - pos) := by
    simp [Reader.remaining, checkedSub, hpos]
  by_cases h0 : 0 < len
  · have hlt : pos < data.length := by
      rcases hrem with h | h
      · omega
      · exact h
    have hz : ¬ (data.length - pos = 0) := by omega
    simp only [Reader.validateOffset, if_pos h0, hrem_ok]
    rw [if_neg hz]
    exact htail
  · have hlen0 : len = 0 := by omega
    subst hlen0
    have hred : Reader.validateOffset ⟨data, i0, pos, e⟩ offset 0 =
        Reader.validateTail ⟨data, i0, pos, e⟩ offset 0 := by
      simp [Reader.validateOffset]
    rw [hred]
    exact htail

end ValidateLemmas

/-- C7 (amended): `validate_offset(offset, length)` applies the claimed
rules in the claimed order — `NoMoreData` when `length > 0` and
`remaining() = 0`, then `OffsetTooSmall`, `OffsetTooLarge`, and
`NotEnoughData(length, remaining())` when
`offset > upper_offset_limit() - length`, else success — *provided*
`length ≤ upper_offset_limit()` (and the cursor invariant
`position ≤ size()` holds); for larger `length` the code's `usize`
subtraction `upper_offset_limit() - length` underflows and panics
instead of reporting `NotEnoughData`. -/
theorem C7_validate_offset_rules (data : List Nat) (i0 pos offset len : Nat) (e : Endidness)
    (hpos : pos ≤ data.length) (hlen : len ≤ data.length + i0) :
    Reader.validateOffset ⟨data, i0, pos, e⟩ offset len =
      Reader.specValidateRules ⟨data, i0, pos, e⟩ offset len := by
  have hrem : (⟨data, i0, pos, e⟩ : Reader).remaining = .ok (data.length - pos) := by
    simp [Reader.remaining, checkedSub, hpos]
  have htail := validateTail_eq_spec data i0 pos offset len e hpos hlen
  by_cases h0 : 0 < len
  · by_cases hz : data.length - pos = 0
    · simp [Reader.validateOffset, Reader.specValidateRules, Reader.specRemaining, hrem, h0, hz]
    · simp only [Reader.validateOffset, if_pos h0, hrem]
      rw [if_neg hz]
      simp only [Reader.specValidateRules, Reader.specRemaining, Reader.lowerOffsetLimit,
        Reader.upperOffsetLimit]
      rw [if_neg (fun h => hz h.2)]
      simpa [Reader.specRemaining] using htail
  · have hlen0 : len = 0 := by omega
    subst hlen0
    simp only [Reader.validateOffset, if_neg h0]
    simp only [Reader.specValidateRules, Reader.specRemaining, Reader.lowerOffsetLimit,
      Reader.upperOffsetLimit]
    rw [if_neg (fun h => h0 h.1)]
    simpa [Reader.specRemaining] using htail

/-- Witness for C7: the rules and the implementation agree at a concrete
in-bounds request. -/
theorem C7_validate_offset_rules_witness :
    Reader.validateOffset ⟨[0, 1], 0, 0, .big⟩ 0 1 =
      Reader.specValidateRules ⟨[0, 1], 0, 0, .big⟩ 0 1 :=
  C7_validate_offset_rules [0, 1] 0 0 0 1 .big (by decide) (by decide)

theorem rangeOp_zero_initial (data : List Nat) (pos start stop : Nat) (e : Endidness)
    (hpos : pos ≤ data.length) (hss : start ≤ stop) (hstop : stop ≤ data.length)
    (hne : start = stop ∨ pos < data.length) :
    Reader.rangeOp ⟨data, 0, pos, e⟩ start stop =
      .ok ((data.drop start).take (stop - start)) := by
  have hsub : checkedSub stop start = some (stop - start) := by simp [checkedSub, hss]
  have hval : Reader.validateOffset ⟨data, 0, pos, e⟩ start (stop - start) = .ok () := by
    apply validateOffset_ok data 0 pos start (stop - start) e hpos _ (by omega) (by omega)
    rcases hne with h | h
    · left; omega
    · right; exact h
  simp only [Reader.rangeOp, hsub, hval]
  simp [sliceIdx, hss, hstop]

/-- C6 (amended): for a parent reader whose `initial_offset()` is `0`
(as produced by `from_slice`) with cursor invariant `position ≤ size()`,
and bounds `start ≤ stop ≤ size()` such that the parent is not already
exhausted when `start < stop`, `slice_reader(start, stop)` yields a
child of size `stop - start` with `initial_offset() = 0`, and
`slice_reader_retain_offset(start, stop)` yields a child whose
`initial_offset()` is the parent's *current* offset
(`current_offset()`), not `initial_offset() + start`. -/
theorem C6_amended_slicing_law (data : List Nat) (pos start stop : Nat) (e : Endidness)
    (hpos : pos ≤ data.length) (hss : start ≤ stop) (hstop : stop ≤ data.length)
    (hne : start = stop ∨ pos < data.length) :
    Reader.sliceReader ⟨data, 0, pos, e⟩ start stop =
      .ok ⟨(data.drop start).take (stop - start), 0, 0, e⟩ ∧
    ((data.drop start).take (stop - start)).length = stop - start ∧
    Reader.sliceReaderRetainOffset ⟨data, 0, pos, e⟩ start stop =
      .ok ⟨(data.drop start).take (stop - start),
            (⟨data, 0, pos, e⟩ : Reader).currentOffset, 0, e⟩ := by
  have hrange := rangeOp_zero_initial data pos start stop e hpos hss hstop hne
  refine ⟨?_, ?_, ?_⟩
  · simp only [Reader.sliceReader, hrange]
  · simp only [List.length_take, List.length_drop]
    omega
  · simp only [Reader.sliceReaderRetainOffset, hrange]

/-- Witness for C6: slicing `[2, 4)` out of a 5-byte zero-offset parent
whose cursor sits at offset `1`. -/
theorem C6_amended_slicing_law_witness :
    Reader.sliceReader ⟨[9, 8, 7, 6, 5], 0, 1, .big⟩ 2 4 =
      .ok ⟨(([9, 8, 7, 6, 5] : List Nat).drop 2).take 2, 0, 0, .big⟩ ∧
    ((([9, 8, 7, 6, 5] : List Nat).drop 2).take 2).length = 2 ∧
    Reader.sliceReaderRetainOffset ⟨[9, 8, 7, 6, 5], 0, 1, .big⟩ 2 4 =
      .ok ⟨(([9, 8, 7, 6, 5] : List Nat).drop 2).take 2,
            (⟨[9, 8, 7, 6, 5], 0, 1, .big⟩ : Reader).currentOffset, 0, .big⟩ :=
  C6_amended_slicing_law [9, 8, 7, 6, 5] 1 2 4 .big (by decide) (by decide) (by decide)
    (Or.inr (by decide))

/-- C10: on a `SliceRefBinReader` (whose cursor sits in a `Cell`, so
`advance_by` is callable through a shared reference), `advance_by(n)`
with a signed — possibly negative — `n` such that
`current_offset() + n` stays within
`[lower_offset_limit(), upper_offset_limit()]` succeeds and changes
`current_offset()` by exactly `n`, under the machine-representability
bound `size() + initial_offset() < 2 ^ 63`. -/
theorem C10_slice_advance_by_signed (data : List Nat) (i0 pos : Nat) (e : Endidness) (n : Int)
    (hpos : pos ≤ data.length) (hsize : data.length + i0 < 2 ^ 63)
    (hlo : (i0 : Int) ≤ ((pos : Int) + (i0 : Int)) + n)
    (hhi : ((pos : Int) + (i0 : Int)) + n ≤ (data.length : Int) + (i0 : Int)) :
    (Reader.advanceBySlice ⟨data, i0, pos, e⟩ n).1 = .ok () ∧
    (((Reader.advanceBySlice ⟨data, i0, pos, e⟩ n).2.currentOffset : Int) =
      ((⟨data, i0, pos, e⟩ : Reader).currentOffset : Int) + n) := by
  have hcur : (⟨data, i0, pos, e⟩ : Reader).currentOffset = pos + i0 := rfl
  have hciAs : asIsize (pos + i0) = ((pos + i0 : Nat) : Int) := asIsize_of_lt _ (by omega)
  have h0T : 0 ≤ ((pos + i0 : Nat) : Int) + n := by push_cast; omega
  have hTlt : ((pos + i0 : Nat) : Int) + n < 2 ^ 64 := by push_cast; omega
  have hAs : asUsize (asIsize ((⟨data, i0, pos, e⟩ : Reader).currentOffset) + n) =
      (((pos + i0 : Nat) : Int) + n).toNat := by
    rw [hcur, hciAs, asUsize_of_bounds _ h0T hTlt]
  have hval : Reader.validateOffset ⟨data, i0, pos, e⟩
      ((((pos + i0 : Nat) : Int) + n).toNat) 0 = .ok () := by
    apply validateOffset_ok data i0 pos _ 0 e hpos (Or.inl rfl) (by omega) (by omega)
  have hadj := adjPos_eq data i0 pos e n (by omega) (by omega) (by omega)
  simp only [Reader.advanceBySlice, hAs, hval, hadj]
  refine ⟨trivial, ?_⟩
  simp only [Reader.currentOffset, hcur]
  push_cast
  omega

/-- Witness for C10: rewinding a 3-byte reader from offset `2` back to
offset `1` with `advance_by(-1)`. -/
theorem C10_slice_advance_by_signed_witness :
    (Reader.advanceBySlice ⟨[0, 1, 2], 0, 2, .big⟩ (-1)).1 = .ok () ∧
    (((Reader.advanceBySlice ⟨[0, 1, 2], 0, 2, .big⟩ (-1)).2.currentOffset : Int) =
      ((⟨[0, 1, 2], 0, 2, .big⟩ : Reader).currentOffset : Int) + (-1)) :=
  C10_slice_advance_by_signed [0, 1, 2] 0 2 .big (-1) (by decide) (by decide) (by decide)
    (by decide)

theorem numOrdAt_mid (e : ByteOrder) (ed : Endidness) (w i0 pos : Nat) (pre post : List Nat)
    (v : Nat) (hw : 0 < w) (hv : v < 256 ^ w)
    (hpos : pos < (pre ++ encodeOrd e w v ++ post).length) :
    Reader.numOrdAt ⟨pre ++ encodeOrd e w v ++ post, i0, pos, ed⟩ e w (i0 + pre.length) =
      .ok v := by
  have hlen : (encodeOrd e w v).length = w := length_encodeOrd e w v
  have hne : encodeOrd e w v ≠ [] := by
    intro h
    rw [h] at hlen
    simp at hlen
    omega
  have hb := bytesAt_mid (encodeOrd e w v) pre post i0 pos ed hne hpos
  rw [hlen] at hb
  simp only [Reader.numOrdAt, hb]
  rw [decodeOrd_encodeOrd e w v hv]

theorem nextBytes_mid (mid pre post : List Nat) (i0 : Nat) (ed : Endidness)
    (hsmall : (pre ++ mid ++ post).length < 2 ^ 63) :
    Reader.nextBytes ⟨pre ++ mid ++ post, i0, pre.length, ed⟩ mid.length =
      (.ok mid, ⟨pre ++ mid ++ post, i0, pre.length + mid.length, ed⟩) :=
  nextBytesGo_mid mid pre post i0 ed hsmall

/-- C9: for every width (the macro instantiates `w ∈ {2, 4, 8, 16}`,
i.e. 16 through 128 bits), byte order, and signedness, encoding a value
and decoding it through the matching `_at` accessor at the value's
offset, or through the matching `next_` accessor with the cursor at
that offset, returns the value exactly — including `0`, `T::MAX` and
`T::MIN`, with no truncation at 128 bits (the bound `v < 256 ^ w`, resp.
`-2^(8w-1) ≤ z < 2^(8w-1)`, is the full range of the type). -/
theorem C9_numeric_roundtrip (e : ByteOrder) (ed : Endidness) (w i0 : Nat)
    (pre post : List Nat) (hw : 0 < w)
    (hsmall : pre.length + (w + post.length) < 2 ^ 63) :
    (∀ v : Nat, v < 256 ^ w →
      Reader.numOrdAt ⟨pre ++ encodeOrd e w v ++ post, i0, pre.length, ed⟩ e w
          (i0 + pre.length) = .ok v ∧
      Reader.nextNumOrd ⟨pre ++ encodeOrd e w v ++ post, i0, pre.length, ed⟩ e w =
        (.ok v, ⟨pre ++ encodeOrd e w v ++ post, i0, pre.length + w, ed⟩)) ∧
    (∀ z : Int, -((256 ^ w : Nat) : Int) ≤ 2 * z → 2 * z < ((256 ^ w : Nat) : Int) →
      Reader.intOrdAt ⟨pre ++ encodeSigned e w z ++ post, i0, pre.length, ed⟩ e w
          (i0 + pre.length) = .ok z ∧
      Reader.nextIntOrd ⟨pre ++ encodeSigned e w z ++ post, i0, pre.length, ed⟩ e w =
        (.ok z, ⟨pre ++ encodeSigned e w z ++ post, i0, pre.length + w, ed⟩)) := by
  constructor
  · intro v hv
    have hlen : (encodeOrd e w v).length = w := length_encodeOrd e w v
    have hpos : pre.length < (pre ++ encodeOrd e w v ++ post).length := by
      simp only [List.length_append, hlen]
      omega
    have htotal : (pre ++ encodeOrd e w v ++ post).length < 2 ^ 63 := by
      simp only [List.length_append, hlen]
      omega
    constructor
    · exact numOrdAt_mid e ed w i0 pre.length pre post v hw hv hpos
    · have hgo := nextBytes_mid (encodeOrd e w v) pre post i0 ed htotal
      rw [hlen] at hgo
      simp only [Reader.nextNumOrd, hgo]
      rw [decodeOrd_encodeOrd e w v hv]
  · intro z h1 h2
    have hm : (0 : Int) < ((256 ^ w : Nat) : Int) := by positivity
    have hmodlt := Int.emod_lt_of_pos z (b := ((256 ^ w : Nat) : Int)) hm
    have hmodnn := Int.emod_nonneg z (ne_of_gt hm)
    have hu : (z % ((256 : Int) ^ w)).toNat < 256 ^ w := by
      rw [← cast_pow_256] at *
      omega
    have henc : encodeSigned e w z = encodeOrd e w (z % ((256 : Int) ^ w)).toNat := rfl
    have hlen : (encodeSigned e w z).length = w := by
      rw [henc]
      exact length_encodeOrd e w _
    have hpos : pre.length < (pre ++ encodeSigned e w z ++ post).length := by
      simp only [List.length_append, hlen]
      omega
    have htotal : (pre ++ encodeSigned e w z ++ post).length < 2 ^ 63 := by
      simp only [List.length_append, hlen]
      omega
    have hsg : asSigned w (decodeOrd e (encodeSigned e w z)) = z := by
      rw [henc, decodeOrd_encodeOrd e w _ hu]
      exact asSigned_of_emod w z h1 h2
    constructor
    · have hne : encodeSigned e w z ≠ [] := by
        intro h
        rw [h] at hlen
        simp at hlen
        omega
      have hb := bytesAt_mid (encodeSigned e w z) pre post i0 pre.length ed hne hpos
      rw [hlen] at hb
      simp only [Reader.intOrdAt, hb]
      rw [hsg]
    · have hgo := nextBytes_mid (encodeSigned e w z) pre post i0 ed htotal
      rw [hlen] at hgo
      simp only [Reader.nextIntOrd, hgo]
      rw [hsg]

/-- Witness for C9: the 128-bit boundary values `u128::MAX` and
`i128::MIN`, big-endian, read back exactly. -/
theorem C9_numeric_roundtrip_witness :
    Reader.numOrdAt ⟨[] ++ encodeOrd .be 16 (2 ^ 128 - 1) ++ [], 0, 0, .big⟩ .be 16 0 =
      .ok (2 ^ 128 - 1) ∧
    Reader.intOrdAt ⟨[] ++ encodeSigned .be 16 (-(2 ^ 127)) ++ [], 0, 0, .big⟩ .be 16 0 =
      .ok (-(2 ^ 127)) := by
  constructor
  · exact ((C9_numeric_roundtrip .be .big 16 0 [] [] (by norm_num) (by norm_num)).1
      (2 ^ 128 - 1) (by norm_num)).1
  · exact ((C9_numeric_roundtrip .be .big 16 0 [] [] (by norm_num) (by norm_num)).2
      (-(2 ^ 127)) (by norm_num) (by norm_num)).1

end Binreader
